import Mathlib

set_option maxRecDepth 8000

/-!
A shallow embedding of the carvel-imgpkg push path and bundle-contents
validation, together with the prefixed logger.

Filesystem model: a path is a list of components (`FsPath`).  Each `-f`
input root is an `InputRoot`: its own path, whether it is a directory, and
the entries `filepath.Walk` yields strictly beneath it, in walk order.
`filepath.Walk` first visits the root itself, then the descendants; this
is `walkList`.  `filepath.Abs` is the identity in this model (all modelled
paths are taken as absolute; in the Go code `Abs` affects only the spelling
of paths inside error messages).  `filepath.Base` is the last component,
`filepath.Dir` drops the last component, and `filepath.Rel root p` of a
walked entry is its stored component list (`"."` for the root itself).
A failing walk is an `InputRoot.walkErr`.  Go map iteration order is
unspecified; the duplicate-path collector here iterates keys in first
appearance order, and every property proved about the collected list is
order independent (membership and emptiness).
-/

abbrev FsPath := List String

deriving instance DecidableEq for Except

/-- `filepath.Base` of a component list: the last component (`""` for the
empty path, which never names a real file). -/
def lastD : FsPath → String
  | [] => ""
  | [s] => s
  | _ :: s :: rest => lastD (s :: rest)

/-- One entry produced by `filepath.Walk` under an input root.  `rel` is the
entry's path relative to the root as a component list (`[]` denotes the root
itself); `isDir` mirrors `info.IsDir()`. -/
structure WalkEntry where
  rel : FsPath
  isDir : Bool
deriving DecidableEq

/-- One `-f` input root together with the tree `filepath.Walk` visits under
it.  `children` are the entries strictly below the root, in walk order
(empty when the root is a plain file).  `walkErr` models `filepath.Walk`
failing for this root (visitor called with a non-nil error). -/
structure InputRoot where
  path : FsPath
  isDir : Bool
  children : List WalkEntry
  walkErr : Option String
deriving DecidableEq

/-- The visit order of `filepath.Walk`: the root itself first, then its
descendants. -/
def walkList (r : InputRoot) : List WalkEntry :=
  ⟨[], r.isDir⟩ :: r.children

/-- push.go: `const BundleDir = ".imgpkg"`. -/
def BundleDir : String := ".imgpkg"

/-- The errors produced along the push path.  Each constructor carries the
data the corresponding `fmt.Errorf` format string interpolates. -/
inductive PushErr where
  | imagesCannotHaveBundleDir (path : FsPath)
  | expectedDirectChild (inputPath : FsPath) (path : FsPath)
  | expectedOneImgpkgDir (paths : List FsPath)
  | duplicatePaths (paths : List FsPath)
  | walkFailed (msg : String)
  | expectedOnlyOneImageOrBundle
  | lockOutputIncompatibleWithImage
  | expectedEitherImageOrBundle
  | parsingFailed (ref : String) (msg : String)
  | packFailed (msg : String)
  | writingFailed (name : String) (msg : String)
  | digestFailed (msg : String)
  | writingLockFileFailed (msg : String)
deriving DecidableEq

/-- The mutable state of `PushOptions.validateFiles`: the collected
`.imgpkg` paths (`bundlePaths`) and the pruned-path map, kept as the list
of (relative key, absolute path) insertions in walk order. -/
structure VState where
  bundlePaths : List FsPath
  pruned : List (FsPath × FsPath)
deriving DecidableEq

/-- The pruned-path key the walk callback computes for an entry: the
root-relative path, or — when the entry is the root itself (a plain file
root, since a root directory is skipped) — `filepath.Base(inputPath)`,
the root's own base name. -/
def entryKey (rootPath : FsPath) (e : WalkEntry) : FsPath :=
  if e.rel = [] then [lastD rootPath] else e.rel

/-- The body of the `filepath.Walk` callback in
`PushOptions.validateFiles` (push.go lines 155-193): skip the root
directory; record the pruned path; pass entries not named `.imgpkg`;
fail an image push on any `.imgpkg` entry; fail a bundle push when the
`.imgpkg` entry is not a direct child of its own input root; otherwise
collect it into `bundlePaths`. -/
def visitEntry (isImg : Bool) (rootPath : FsPath) (e : WalkEntry) (st : VState) :
    Except PushErr VState :=
  if e.rel = [] ∧ e.isDir = true then .ok st
  else if lastD (rootPath ++ e.rel) ≠ BundleDir then
    .ok ⟨st.bundlePaths, st.pruned ++ [(entryKey rootPath e, rootPath ++ e.rel)]⟩
  else if isImg = true then
    .error (.imagesCannotHaveBundleDir (rootPath ++ e.rel))
  else if (rootPath ++ e.rel).dropLast ≠ rootPath then
    .error (.expectedDirectChild rootPath (rootPath ++ e.rel))
  else
    .ok ⟨st.bundlePaths ++ [rootPath ++ e.rel],
         st.pruned ++ [(entryKey rootPath e, rootPath ++ e.rel)]⟩

/-- Run the walk callback over a list of entries, stopping at the first
error, as `filepath.Walk` does. -/
def runVisits (isImg : Bool) (rootPath : FsPath) :
    List WalkEntry → VState → Except PushErr VState
  | [], st => .ok st
  | e :: es, st =>
    match visitEntry isImg rootPath e st with
    | .error err => .error err
    | .ok st2 => runVisits isImg rootPath es st2

/-- `filepath.Walk(inputPath, …)` for one input root: a failing walk
surfaces its error (the callback returns the non-nil `err` argument);
otherwise every entry is visited in order. -/
def walkRoot (isImg : Bool) (r : InputRoot) (st : VState) : Except PushErr VState :=
  match r.walkErr with
  | some m => .error (.walkFailed m)
  | none => runVisits isImg r.path (walkList r) st

/-- The loop of `PushOptions.validateFiles` over all `-f` roots. -/
def walkAll (isImg : Bool) : List InputRoot → VState → Except PushErr VState
  | [], st => .ok st
  | r :: rs, st =>
    match walkRoot isImg r st with
    | .error err => .error err
    | .ok st2 => walkAll isImg rs st2

/-- The paths stored under one pruned-path key, in insertion order
(the value list of the Go map `prunedFilepaths`). -/
def groupPaths (k : FsPath) : List (FsPath × FsPath) → List FsPath
  | [] => []
  | q :: qs => if q.1 = k then q.2 :: groupPaths k qs else groupPaths k qs

/-- The distinct keys of the pruned-path map, in first-appearance order
(Go iterates the map in unspecified order; every property proved below is
independent of this order). -/
def dedupKeys : List (FsPath × FsPath) → List FsPath
  | [] => []
  | q :: qs => if q.1 ∈ dedupKeys qs then dedupKeys qs else q.1 :: dedupKeys qs

/-- Collect every member of every colliding group (`len(v) > 1`), as the
loop of `checkRepeatedPaths` does. -/
def collectRepeats (pr : List (FsPath × FsPath)) : List FsPath → List FsPath
  | [] => []
  | k :: ks =>
    if 1 < (groupPaths k pr).length then groupPaths k pr ++ collectRepeats pr ks
    else collectRepeats pr ks

/-- All repeated absolute paths of the pruned-path map. -/
def repeatedPaths (pr : List (FsPath × FsPath)) : List FsPath :=
  collectRepeats pr (dedupKeys pr)

/-- `checkRepeatedPaths` (push.go lines 207-218): error listing every
member of every colliding group when any relative path was produced more
than once; nil otherwise. -/
def checkRepeatedPaths (pr : List (FsPath × FsPath)) : Except PushErr Unit :=
  if repeatedPaths pr = [] then .ok () else .error (.duplicatePaths (repeatedPaths pr))

/-- `PushOptions.validateFiles` (push.go lines 151-205): walk every root,
then reject more than one collected `.imgpkg` dir, then check for repeated
pruned paths.  The receiver's `o.isImage()` is passed as `isImg` and
`o.FileFlags.Files` (with the tree under each) as `roots`. -/
def validateFiles (isImg : Bool) (roots : List InputRoot) : Except PushErr Unit :=
  match walkAll isImg roots ⟨[], []⟩ with
  | .error e => .error e
  | .ok st =>
    if 1 < st.bundlePaths.length then .error (.expectedOneImgpkgDir st.bundlePaths)
    else checkRepeatedPaths st.pruned

/-- Whether a validation outcome is the duplicate-paths error. -/
def isDuplicatePathsErr : Except PushErr Unit → Bool
  | .error (.duplicatePaths _) => true
  | _ => false

/-- What one walk entry contributes to the pruned-path map (nothing for a
skipped root directory). -/
def prunedAdd (rootPath : FsPath) (e : WalkEntry) : List (FsPath × FsPath) :=
  if e.rel = [] ∧ e.isDir = true then []
  else [(entryKey rootPath e, rootPath ++ e.rel)]

/-- What one walk entry contributes to the collected `.imgpkg` paths when
its visit succeeds. -/
def bundleAdd (rootPath : FsPath) (e : WalkEntry) : List FsPath :=
  if e.rel = [] ∧ e.isDir = true then []
  else if lastD (rootPath ++ e.rel) ≠ BundleDir then []
  else [rootPath ++ e.rel]

def catLists {α β : Type} (f : α → List β) : List α → List β
  | [] => []
  | a :: as => f a ++ catLists f as

/-- The pruned-path insertions one root contributes. -/
def prunedOfRoot (r : InputRoot) : List (FsPath × FsPath) :=
  catLists (prunedAdd r.path) (walkList r)

/-- The `.imgpkg` paths one root contributes: its walked entries (other
than a skipped root directory) whose base name is `.imgpkg`. -/
def bundleOfRoot (r : InputRoot) : List FsPath :=
  catLists (bundleAdd r.path) (walkList r)

/-- The whole pruned-path map over all roots, in insertion order. -/
def prunedAll (roots : List InputRoot) : List (FsPath × FsPath) :=
  catLists prunedOfRoot roots

/-- All `.imgpkg` paths collected over all roots. -/
def bundleFound (roots : List InputRoot) : List FsPath :=
  catLists bundleOfRoot roots

/-- An entry's visit succeeds (for every state) exactly when it is a
skipped root directory, or is not named `.imgpkg`, or — on a bundle push —
is a direct child of its own root. -/
def okEntry (isImg : Bool) (rootPath : FsPath) (e : WalkEntry) : Prop :=
  (e.rel = [] ∧ e.isDir = true) ∨ lastD (rootPath ++ e.rel) ≠ BundleDir ∨
    (isImg = false ∧ (rootPath ++ e.rel).dropLast = rootPath)

instance (isImg : Bool) (rootPath : FsPath) (e : WalkEntry) :
    Decidable (okEntry isImg rootPath e) := by
  unfold okEntry; infer_instance

/-- A root whose walk succeeds and whose every entry passes the callback. -/
def cleanRoot (isImg : Bool) (r : InputRoot) : Prop :=
  r.walkErr = none ∧ ∀ e ∈ walkList r, okEntry isImg r.path e

instance (isImg : Bool) (r : InputRoot) : Decidable (cleanRoot isImg r) := by
  unfold cleanRoot; infer_instance

/-- A walked entry whose base name is `.imgpkg` and that is not a skipped
root directory: exactly the entries the callback's `.imgpkg` branch fires
on. -/
def imgpkgHit (r : InputRoot) (e : WalkEntry) : Prop :=
  ¬(e.rel = [] ∧ e.isDir = true) ∧ lastD (r.path ++ e.rel) = BundleDir

instance (r : InputRoot) (e : WalkEntry) : Decidable (imgpkgHit r e) := by
  unfold imgpkgHit; infer_instance

/-- The push command's flag set (ImageFlags.Image, BundleFlags.Bundle and
OutputFlags.LockFilePath flattened into one record, as
`PushOptions.Run` reads them). -/
structure PushOptions where
  image : String
  bundle : String
  lockFilePath : String
deriving DecidableEq

/-- `PushOptions.validateFlags` (push.go lines 133-149). -/
def PushOptions.validateFlags (o : PushOptions) : Option PushErr :=
  if o.image ≠ "" then
    if o.bundle ≠ "" then some .expectedOnlyOneImageOrBundle
    else if o.lockFilePath ≠ "" then some .lockOutputIncompatibleWithImage
    else none
  else if o.bundle = "" then some .expectedEitherImageOrBundle
  else none

/- ---------------------------------------------------------------------
bundle/contents.go
--------------------------------------------------------------------- -/

/-- contents.go: `ImgpkgDir = ".imgpkg"`. -/
def ImgpkgDir : String := ".imgpkg"

/-- contents.go: `BundlesDir = "bundles"`. -/
def BundlesDir : String := "bundles"

/-- contents.go: `ImagesLockFile = "images.yml"`. -/
def ImagesLockFile : String := "images.yml"

/-- The validation failures of `Contents`, each carrying the interpolated
data of its message. -/
inductive BundleValidationKind where
  | expectedOneImgpkgDir (dirs : List FsPath)
  | notDirectChild (flagPaths : List FsPath) (dir : FsPath)
deriving DecidableEq

/-- The errors `Contents` can surface: a `bundleValidationError` or a
non-validation failure (a failing filesystem walk). -/
inductive ContentsError where
  | bundleValidation (k : BundleValidationKind)
  | walkFailure (msg : String)
deriving DecidableEq

/-- `bundle.Contents`: the `-f` paths (here carried together with the tree
walked under each) and the excluded paths (unused by the validation
functions modelled here). -/
structure Contents where
  paths : List InputRoot
  excludedPaths : List FsPath
deriving DecidableEq

/-- The `.imgpkg`-named entries one walk collects in
`Contents.findImgpkgDirs` (note: unlike the push command's callback, the
root itself is not skipped, and files count as well as directories). -/
def collectImgpkg (r : InputRoot) : List FsPath :=
  ((walkList r).filter (fun e => decide (lastD (r.path ++ e.rel) = ImgpkgDir))).map
    (fun e => r.path ++ e.rel)

/-- The loop of `Contents.findImgpkgDirs` over the roots; a failing walk
aborts with its error. -/
def findImgpkgGo : List InputRoot → List FsPath → Except ContentsError (List FsPath)
  | [], acc => .ok acc
  | r :: rs, acc =>
    match r.walkErr with
    | some m => .error (.walkFailure m)
    | none => findImgpkgGo rs (acc ++ collectImgpkg r)

/-- `Contents.findImgpkgDirs` (contents.go lines 81-109). -/
def Contents.findImgpkgDirs (b : Contents) : Except ContentsError (List FsPath) :=
  findImgpkgGo b.paths []

/-- `Contents.validateImgpkgDirs` (contents.go lines 111-135), with the
receiver's `b.paths` passed explicitly as `flagPaths`: exactly one
`.imgpkg` dir must exist and its parent must be one of the flag paths;
both failures are `bundleValidationError`s. -/
def validateImgpkgDirs (flagPaths : List FsPath) (imgpkgDirs : List FsPath) :
    Option ContentsError :=
  if imgpkgDirs.length ≠ 1 then
    some (.bundleValidation (.expectedOneImgpkgDir imgpkgDirs))
  else if flagPaths.any (fun fp => decide ((imgpkgDirs.headD []).dropLast = fp)) then
    none
  else
    some (.bundleValidation (.notDirectChild flagPaths (imgpkgDirs.headD [])))

/-- The flag paths of a `Contents` (its `b.paths` strings). -/
def Contents.flagPaths (b : Contents) : List FsPath :=
  b.paths.map InputRoot.path

/-- `Contents.validate` (contents.go lines 67-79). -/
def Contents.validate (b : Contents) : Option ContentsError :=
  match b.findImgpkgDirs with
  | .error e => some e
  | .ok dirs => validateImgpkgDirs b.flagPaths dirs

/-- `Contents.PresentsAsBundle` (contents.go lines 50-65): a
`bundleValidationError` from `validateImgpkgDirs` becomes `(false, nil)`;
any other error is returned; success is `(true, nil)`. -/
def Contents.PresentsAsBundle (b : Contents) : Bool × Option ContentsError :=
  match b.findImgpkgDirs with
  | .error e => (false, some e)
  | .ok dirs =>
    match validateImgpkgDirs b.flagPaths dirs with
    | some (.bundleValidation _) => (false, none)
    | some (.walkFailure m) => (false, some (.walkFailure m))
    | none => (true, none)

/-- Modelled from the spec: `BundleConfigLabel`, declared outside src/, is
the reserved bundle-marking key; the spec names `io.k14s.imgpkg.bundle`
(section 6) as the key, confirmed by the e2e test assertion. -/
def BundleConfigLabel : String := "io.k14s.imgpkg.bundle"

/-- An OCI manifest reduced to what the claims observe: its annotation map,
as a key-value list. -/
structure Manifest where
  labels : List (String × String)
deriving DecidableEq

/-- Modelled from the spec: `plainimage.Contents.Push`
(pkg/imgpkg/plainimage, not under src/) wraps the content as a single layer
and tags the artifact with exactly the labels the caller supplies
(section 4.1: the reserved annotation is applied only when given). -/
def plainimagePush (labels : List (String × String)) : Manifest :=
  ⟨labels⟩

/-- `Contents.Push` (contents.go lines 40-48): validate, then delegate to
the plain-image push with the bundle label set to the literal `"true"`.
The model returns the manifest written in place of the digest string. -/
def Contents.Push (b : Contents) : Except ContentsError Manifest :=
  match b.validate with
  | some e => .error e
  | none => .ok (plainimagePush [(BundleConfigLabel, "true")])

/- ---------------------------------------------------------------------
cmd/push.go PushOptions.Run
--------------------------------------------------------------------- -/

/-- A parsed tag reference (`regname.Tag`, an external collaborator):
`context` is `uploadRef.Context()` (the repository), `tagStr` is
`uploadRef.TagStr()` and `name` is `uploadRef.Name()`. -/
structure ImageTag where
  context : String
  tagStr : String
  name : String
deriving DecidableEq

/-- Modelled from the spec: `TarImage.AsFileBundle` (pkg/imgpkg/image, not
under src/) marks the produced artifact with the reserved bundle key set to
the literal `"true"` (section 4.1). -/
def asFileBundleManifest : Manifest :=
  ⟨[(BundleConfigLabel, "true")]⟩

/-- Modelled from the spec: `TarImage.AsFileImage` (pkg/imgpkg/image, not
under src/) never applies the reserved bundle key (section 4.1: never for
plain images). -/
def asFileImageManifest : Manifest :=
  ⟨[]⟩

/-- The external collaborators `PushOptions.Run` consults, as oracles:
reference parsing, tar packing failure, registry write failure, digest
computation, and the lock-file write.  The packed manifest itself is
determined by the declared kind (see `asFileBundleManifest`). -/
structure RunEnv where
  parseTag : String → Except String ImageTag
  packErr : Option String
  writeImageErr : Option String
  digestResult : Except String String
  writeFileErr : Option String

/-- The BundleLock document structure (declared outside src/ in the cmd
package; field shape as used by push.go lines 105-114 and spec section 6). -/
structure BundleImage where
  url : String
  tag : String
deriving DecidableEq

structure BundleSpec where
  image : BundleImage
deriving DecidableEq

structure BundleLock where
  apiVersion : String
  kind : String
  spec : BundleSpec
deriving DecidableEq

/-- The observable outcome of one `PushOptions.Run`: the returned error (or
none), every `registry.WriteImage` call attempted, and the lock document
written to disk, if any. -/
structure RunResult where
  err : Option PushErr
  imageWrites : List (ImageTag × Manifest)
  lockWritten : Option (String × BundleLock)
deriving Inhabited

/-- `PushOptions.Run` (push.go lines 51-128): validate flags, validate
files, parse the destination tag, pack (bundle or image by the declared
kind), write the image, take its digest, and finally — when a lock path
was requested — write the BundleLock pinning `repository@digest` and the
pushed tag.  YAML serialization of the written document is elided: the
result records the structured document. -/
def PushOptions.Run (o : PushOptions) (roots : List InputRoot) (env : RunEnv) :
    RunResult :=
  match o.validateFlags with
  | some e => ⟨some e, [], none⟩
  | none =>
    match validateFiles (o.image ≠ "") roots with
    | .error e => ⟨some e, [], none⟩
    | .ok _ =>
      match env.parseTag (if o.bundle ≠ "" then o.bundle else o.image) with
      | .error msg =>
        ⟨some (.parsingFailed (if o.bundle ≠ "" then o.bundle else o.image) msg), [], none⟩
      | .ok uploadRef =>
        match env.packErr with
        | some msg => ⟨some (.packFailed msg), [], none⟩
        | none =>
          match env.writeImageErr with
          | some msg =>
            ⟨some (.writingFailed uploadRef.name msg),
             [(uploadRef, if o.bundle ≠ "" then asFileBundleManifest else asFileImageManifest)],
             none⟩
          | none =>
            match env.digestResult with
            | .error msg =>
              ⟨some (.digestFailed msg),
               [(uploadRef, if o.bundle ≠ "" then asFileBundleManifest else asFileImageManifest)],
               none⟩
            | .ok dg =>
              if o.lockFilePath ≠ "" then
                match env.writeFileErr with
                | some msg =>
                  ⟨some (.writingLockFileFailed msg),
                   [(uploadRef, if o.bundle ≠ "" then asFileBundleManifest else asFileImageManifest)],
                   none⟩
                | none =>
                  ⟨none,
                   [(uploadRef, if o.bundle ≠ "" then asFileBundleManifest else asFileImageManifest)],
                   some (o.lockFilePath,
                     ⟨"imgpkg.k14s.io/v1alpha1", "BundleLock",
                      ⟨⟨uploadRef.context ++ "@" ++ dg, uploadRef.tagStr⟩⟩⟩)⟩
              else
                ⟨none,
                 [(uploadRef, if o.bundle ≠ "" then asFileBundleManifest else asFileImageManifest)],
                 none⟩

/- ---------------------------------------------------------------------
image/prefixed_logger.go
--------------------------------------------------------------------- -/

/-- A prefixed writer over a shared sink; `pfx` is the writer's prefix
field. -/
structure LoggerPrefixWriter where
  pfx : List Char

/-- `bytes.Replace(s, "\n", "\n"+prefixBytes, -1)`: every newline is
followed by the prefix. -/
def replaceNl (pfx : List Char) : List Char → List Char
  | [] => []
  | c :: cs =>
    if c = '\n' then '\n' :: (pfx ++ replaceNl pfx cs)
    else c :: replaceNl pfx cs

/-- Drop the final newline when the data ends with one
(`bytes.HasSuffix(newData, "\n")` followed by the truncation). -/
def dropTrailingNl (d : List Char) : List Char :=
  if d.getLast? = some '\n' then d.dropLast else d

/-- The bytes `LoggerPrefixWriter.Write` hands to the underlying writer
(prefixed_logger.go lines 33-42): copy, strip one trailing newline,
replace each newline by newline-plus-prefix, append one newline, prepend
the prefix.  The Go code operates on a fresh copy of `data`, so the
caller's slice is untouched. -/
def prefixWriteData (pfx d : List Char) : List Char :=
  pfx ++ (replaceNl pfx (dropTrailingNl d) ++ ['\n'])

/-- `LoggerPrefixWriter.Write` (prefixed_logger.go lines 32-54): writes
`prefixWriteData` to the underlying writer and — when that write succeeds —
returns the length of the original input, not of the bytes written;
an underlying failure returns the wrapped error. -/
def LoggerPrefixWriter.Write (w : LoggerPrefixWriter) (data : List Char)
    (underlyingErr : Option String) : List Char × Except String Nat :=
  (prefixWriteData w.pfx data,
   match underlyingErr with
   | some e => .error ("write err: " ++ e)
   | none => .ok data.length)

/-- Split into lines at newlines (no newline removal semantics beyond the
separator itself); always nonempty. -/
def splitNl : List Char → List (List Char)
  | [] => [[]]
  | c :: cs =>
    if c = '\n' then [] :: splitNl cs
    else
      match splitNl cs with
      | [] => [[c]]
      | g :: gs => (c :: g) :: gs

/-- Join lines with single newlines between them. -/
def joinLines : List (List Char) → List Char
  | [] => []
  | [l] => l
  | l :: l2 :: ls => l ++ '\n' :: joinLines (l2 :: ls)

/-- The claim's description of the written bytes, built from its words: the
input with the prefix prepended to the first line and inserted after every
interior newline (a trailing newline is not interior), and a single
trailing newline appended. -/
def specLineFormat (pfx d : List Char) : List Char :=
  joinLines ((splitNl (dropTrailingNl d)).map (fun l => pfx ++ l)) ++ ['\n']

/- ---------------------------------------------------------------------
Concrete inputs used by witnesses and counterexamples
--------------------------------------------------------------------- -/

/-- A bundle-push input holding no `.imgpkg` directory at all. -/
def c1NoImgpkgRoot : InputRoot := ⟨["app"], true, [⟨["foo.txt"], false⟩], none⟩

/-- An image-push input holding a `.imgpkg` directory. -/
def c1ImgRoot : InputRoot := ⟨["r1"], true, [⟨[".imgpkg"], true⟩], none⟩

/-- Two roots with direct-child `.imgpkg` dirs and a colliding `f.txt`. -/
def c2MaskA : InputRoot := ⟨["a"], true, [⟨[".imgpkg"], true⟩, ⟨["f.txt"], false⟩], none⟩

def c2MaskB : InputRoot := ⟨["b"], true, [⟨[".imgpkg"], true⟩, ⟨["f.txt"], false⟩], none⟩

/-- Two plain-file roots sharing the base name `f`. -/
def c2DupA : InputRoot := ⟨["x", "f"], false, [], none⟩

def c2DupB : InputRoot := ⟨["y", "f"], false, [], none⟩

def wTag : ImageTag := ⟨"index.docker.io/u/app", "latest", "index.docker.io/u/app:latest"⟩

def wEnv : RunEnv := ⟨fun _ => .ok wTag, none, none, .ok ("sha256:abc"), none⟩

def c3Root : InputRoot := ⟨["w"], true, [], none⟩

def c3Flags : PushOptions := ⟨"", "u/app", "lock.yml"⟩

def c3Lock : BundleLock :=
  ⟨"imgpkg.k14s.io/v1alpha1", "BundleLock", ⟨⟨"index.docker.io/u/app@sha256:abc", "latest"⟩⟩⟩

/-- A root with a `.imgpkg` dir nested one level too deep. -/
def c4Root : InputRoot := ⟨["r"], true, [⟨["d"], true⟩, ⟨["d", ".imgpkg"], true⟩], none⟩

def c4Flags : PushOptions := ⟨"", "u/app2", ""⟩

def c5FlagsB : PushOptions := ⟨"", "u/b5", ""⟩

def c5FlagsI : PushOptions := ⟨"u/i5", "", ""⟩

def c6Root : InputRoot := ⟨["s"], true, [⟨["deep"], true⟩, ⟨["deep", ".imgpkg"], true⟩], none⟩

def c8Yes : Contents := ⟨[⟨["app8"], true, [⟨[".imgpkg"], true⟩], none⟩], []⟩

def c8No : Contents := ⟨[⟨["app8"], true, [], none⟩], []⟩

def c8Err : Contents := ⟨[⟨["app8"], true, [], some ("io fail")⟩], []⟩

/-- Two plain-file roots both named `.imgpkg`. -/
def c10F1 : InputRoot := ⟨["a", ".imgpkg"], false, [], none⟩

def c10F2 : InputRoot := ⟨["b", ".imgpkg"], false, [], none⟩

/-- Two plain-file roots sharing the base name `data.yml`. -/
def c10W1 : InputRoot := ⟨["m", "data.yml"], false, [], none⟩

def c10W2 : InputRoot := ⟨["n", "data.yml"], false, [], none⟩

/- ---------------------------------------------------------------------
Helper lemmas
--------------------------------------------------------------------- -/

theorem lastD_append (a b : FsPath) (hb : b ≠ []) : lastD (a ++ b) = lastD b := by
  induction a with
  | nil => rfl
  | cons x xs ih =>
    cases h2 : xs ++ b with
    | nil => exact absurd (List.append_eq_nil.mp h2).2 hb
    | cons y ys =>
      calc lastD ((x :: xs) ++ b) = lastD (x :: (xs ++ b)) := rfl
        _ = lastD (x :: y :: ys) := by rw [h2]
        _ = lastD (y :: ys) := rfl
        _ = lastD (xs ++ b) := by rw [h2]
        _ = lastD b := ih

theorem dropLast_append (a b : FsPath) (hb : b ≠ []) :
    (a ++ b).dropLast = a ++ b.dropLast := by
  induction a with
  | nil => rfl
  | cons x xs ih =>
    cases h2 : xs ++ b with
    | nil => exact absurd (List.append_eq_nil.mp h2).2 hb
    | cons y ys =>
      calc ((x :: xs) ++ b).dropLast = (x :: (xs ++ b)).dropLast := rfl
        _ = (x :: y :: ys).dropLast := by rw [h2]
        _ = x :: (y :: ys).dropLast := rfl
        _ = x :: (xs ++ b).dropLast := by rw [h2]
        _ = x :: (xs ++ b.dropLast) := by rw [ih]
        _ = (x :: xs) ++ b.dropLast := rfl

theorem append_eq_self_iff (a x : FsPath) : a ++ x = a ↔ x = [] := by
  constructor
  · intro h
    have hlen := congrArg List.length h
    simp only [List.length_append] at hlen
    have : x.length = 0 := by omega
    exact List.length_eq_zero.mp this
  · intro h; simp [h]

theorem mem_catLists {α β : Type} (f : α → List β) (l : List α) (b : β) :
    b ∈ catLists f l ↔ ∃ a ∈ l, b ∈ f a := by
  induction l with
  | nil => simp [catLists]
  | cons x xs ih =>
    simp only [catLists, List.mem_append, ih, List.mem_cons]
    constructor
    · rintro (h | ⟨a, ha, hb⟩)
      · exact ⟨x, Or.inl rfl, h⟩
      · exact ⟨a, Or.inr ha, hb⟩
    · rintro ⟨a, (rfl | ha), hb⟩
      · exact Or.inl hb
      · exact Or.inr ⟨a, ha, hb⟩

theorem mem_groupPaths (k : FsPath) (pr : List (FsPath × FsPath)) (p : FsPath) :
    p ∈ groupPaths k pr ↔ (k, p) ∈ pr := by
  induction pr with
  | nil => simp [groupPaths]
  | cons q qs ih =>
    rcases q with ⟨k1, p1⟩
    by_cases hk : k1 = k
    · subst hk
      simp [groupPaths, List.mem_cons, ih, Prod.mk.injEq]
    · have hk2 : ¬(k = k1) := fun h => hk h.symm
      simp [groupPaths, if_neg hk, ih, List.mem_cons, Prod.mk.injEq, hk2]

theorem mem_dedupKeys (pr : List (FsPath × FsPath)) (k : FsPath) :
    k ∈ dedupKeys pr ↔ ∃ p, (k, p) ∈ pr := by
  induction pr with
  | nil => simp [dedupKeys]
  | cons q qs ih =>
    rcases q with ⟨k1, p1⟩
    constructor
    · intro h
      by_cases hmem : k1 ∈ dedupKeys qs
      · simp only [dedupKeys, if_pos hmem] at h
        obtain ⟨p, hp⟩ := ih.mp h
        exact ⟨p, List.mem_cons_of_mem _ hp⟩
      · simp only [dedupKeys, if_neg hmem] at h
        rcases List.mem_cons.mp h with h1 | h1
        · exact ⟨p1, by rw [h1]; exact List.mem_cons_self _ _⟩
        · obtain ⟨p, hp⟩ := ih.mp h1
          exact ⟨p, List.mem_cons_of_mem _ hp⟩
    · rintro ⟨p, hp⟩
      rcases List.mem_cons.mp hp with h1 | h1
      · have hkk : k = k1 := congrArg Prod.fst h1
        by_cases hmem : k1 ∈ dedupKeys qs
        · simp only [dedupKeys, if_pos hmem]
          rw [hkk]; exact hmem
        · simp only [dedupKeys, if_neg hmem]
          rw [hkk]; exact List.mem_cons_self _ _
      · have hks : k ∈ dedupKeys qs := ih.mpr ⟨p, h1⟩
        by_cases hmem : k1 ∈ dedupKeys qs
        · simp only [dedupKeys, if_pos hmem]; exact hks
        · simp only [dedupKeys, if_neg hmem]
          exact List.mem_cons_of_mem _ hks

theorem mem_collectRepeats (pr : List (FsPath × FsPath)) (ks : List FsPath)
    (k p : FsPath) (hk : k ∈ ks) (hlen : 1 < (groupPaths k pr).length)
    (hp : p ∈ groupPaths k pr) : p ∈ collectRepeats pr ks := by
  induction ks with
  | nil => cases hk
  | cons k1 ks ih =>
    rcases List.mem_cons.mp hk with h1 | h1
    · subst h1
      simp only [collectRepeats, if_pos hlen]
      exact List.mem_append.mpr (Or.inl hp)
    · by_cases hl1 : 1 < (groupPaths k1 pr).length
      · simp only [collectRepeats, if_pos hl1]
        exact List.mem_append.mpr (Or.inr (ih h1))
      · simp only [collectRepeats, if_neg hl1]
        exact ih h1

theorem collectRepeats_nil (pr : List (FsPath × FsPath)) (ks : List FsPath)
    (h : ∀ k ∈ ks, (groupPaths k pr).length ≤ 1) : collectRepeats pr ks = [] := by
  induction ks with
  | nil => rfl
  | cons k1 ks ih =>
    have hn : ¬ 1 < (groupPaths k1 pr).length :=
      not_lt.mpr (h k1 (List.mem_cons_self _ _))
    simp only [collectRepeats, if_neg hn,
      ih (fun k hk => h k (List.mem_cons_of_mem _ hk))]

theorem checkRepeatedPaths_ok (pr : List (FsPath × FsPath))
    (h : ∀ k ∈ dedupKeys pr, (groupPaths k pr).length ≤ 1) :
    checkRepeatedPaths pr = .ok () := by
  unfold checkRepeatedPaths repeatedPaths
  rw [collectRepeats_nil pr _ h]
  simp

theorem checkRepeatedPaths_err (pr : List (FsPath × FsPath)) (k p : FsPath)
    (hmem : (k, p) ∈ pr) (hlen : 1 < (groupPaths k pr).length) :
    checkRepeatedPaths pr = .error (.duplicatePaths (repeatedPaths pr)) ∧
      p ∈ repeatedPaths pr := by
  have hp : p ∈ groupPaths k pr := (mem_groupPaths k pr p).mpr hmem
  have hk : k ∈ dedupKeys pr := (mem_dedupKeys pr k).mpr ⟨p, hmem⟩
  have hrep : p ∈ repeatedPaths pr := mem_collectRepeats pr _ k p hk hlen hp
  have hne : repeatedPaths pr ≠ [] := by
    intro hx; rw [hx] at hrep; cases hrep
  refine ⟨?_, hrep⟩
  unfold checkRepeatedPaths
  rw [if_neg hne]

theorem two_mem_length {α : Type} (l : List α) (a b : α)
    (ha : a ∈ l) (hb : b ∈ l) (hne : a ≠ b) : 1 < l.length := by
  cases l with
  | nil => cases ha
  | cons x xs =>
    cases xs with
    | nil =>
      have h1 := List.mem_singleton.mp ha
      have h2 := List.mem_singleton.mp hb
      rw [h1, h2] at hne
      exact absurd rfl hne
    | cons y ys => simp only [List.length]; omega

theorem visit_ok (isImg : Bool) (rp : FsPath) (e : WalkEntry) (st : VState)
    (h : okEntry isImg rp e) :
    visitEntry isImg rp e st =
      .ok ⟨st.bundlePaths ++ bundleAdd rp e, st.pruned ++ prunedAdd rp e⟩ := by
  by_cases h1 : e.rel = [] ∧ e.isDir = true
  · simp [visitEntry, bundleAdd, prunedAdd, h1]
  · by_cases h2 : lastD (rp ++ e.rel) = BundleDir
    · rcases h with h | h | ⟨hi, hd⟩
      · exact absurd h h1
      · exact absurd h2 h
      · simp [visitEntry, bundleAdd, prunedAdd, h1, h2, hi, hd]
    · simp [visitEntry, bundleAdd, prunedAdd, h1, h2]

theorem visit_err (isImg : Bool) (rp : FsPath) (e : WalkEntry) (st : VState)
    (h : ¬ okEntry isImg rp e) :
    visitEntry isImg rp e st =
      (if isImg = true then .error (.imagesCannotHaveBundleDir (rp ++ e.rel))
       else .error (.expectedDirectChild rp (rp ++ e.rel))) := by
  unfold okEntry at h
  have h1 : ¬(e.rel = [] ∧ e.isDir = true) := fun hx => h (Or.inl hx)
  have h2 : lastD (rp ++ e.rel) = BundleDir := by
    by_contra hx; exact h (Or.inr (Or.inl hx))
  have h3 : ¬(isImg = false ∧ (rp ++ e.rel).dropLast = rp) :=
    fun hx => h (Or.inr (Or.inr hx))
  cases isImg with
  | true => simp [visitEntry, h1, h2]
  | false =>
    have hd : (rp ++ e.rel).dropLast ≠ rp := fun hdd => h3 ⟨rfl, hdd⟩
    simp [visitEntry, h1, h2, hd]

theorem visit_err_shape (isImg : Bool) (rp : FsPath) (e : WalkEntry) (st : VState)
    (err : PushErr) (h : visitEntry isImg rp e st = .error err) :
    (isImg = true → ∃ p, err = .imagesCannotHaveBundleDir p) ∧
    (isImg = false → ∃ ip p, err = .expectedDirectChild ip p) := by
  by_cases hok : okEntry isImg rp e
  · rw [visit_ok isImg rp e st hok] at h; cases h
  · rw [visit_err isImg rp e st hok] at h
    cases isImg with
    | true =>
      rw [if_pos rfl] at h
      injection h with h2
      exact ⟨fun _ => ⟨rp ++ e.rel, h2.symm⟩, fun hf => absurd hf (by decide)⟩
    | false =>
      rw [if_neg (by decide)] at h
      injection h with h2
      exact ⟨fun hf => absurd hf (by decide), fun _ => ⟨rp, rp ++ e.rel, h2.symm⟩⟩

theorem runVisits_ok (isImg : Bool) (rp : FsPath) (es : List WalkEntry) :
    ∀ st : VState, (∀ e ∈ es, okEntry isImg rp e) →
      runVisits isImg rp es st =
        .ok ⟨st.bundlePaths ++ catLists (bundleAdd rp) es,
             st.pruned ++ catLists (prunedAdd rp) es⟩ := by
  induction es with
  | nil => intro st h; simp [runVisits, catLists]
  | cons e es ih =>
    intro st h
    have he : okEntry isImg rp e := h e (List.mem_cons_self _ _)
    simp only [runVisits, visit_ok isImg rp e st he]
    rw [ih _ (fun e2 h2 => h e2 (List.mem_cons_of_mem _ h2))]
    simp [catLists, List.append_assoc]

theorem runVisits_bad (isImg : Bool) (rp : FsPath) (es : List WalkEntry)
    (e : WalkEntry) (he : e ∈ es) (hbad : ¬ okEntry isImg rp e) :
    ∀ st : VState, ∃ err, runVisits isImg rp es st = .error err := by
  induction es with
  | nil => cases he
  | cons e1 es ih =>
    intro st
    rcases List.mem_cons.mp he with h1 | h1
    · subst h1
      refine ⟨if isImg = true then .imagesCannotHaveBundleDir (rp ++ e.rel)
              else .expectedDirectChild rp (rp ++ e.rel), ?_⟩
      simp only [runVisits, visit_err isImg rp e st hbad]
      cases isImg <;> rfl
    · cases hv : visitEntry isImg rp e1 st with
      | error err => exact ⟨err, by simp only [runVisits, hv]⟩
      | ok st2 =>
        obtain ⟨err, herr⟩ := ih h1 st2
        exact ⟨err, by simp only [runVisits, hv]; exact herr⟩

theorem runVisits_err_shape (isImg : Bool) (rp : FsPath) (es : List WalkEntry) :
    ∀ (st : VState) (err : PushErr), runVisits isImg rp es st = .error err →
      (isImg = true → ∃ p, err = .imagesCannotHaveBundleDir p) ∧
      (isImg = false → ∃ ip p, err = .expectedDirectChild ip p) := by
  induction es with
  | nil => intro st err h; simp [runVisits] at h
  | cons e es ih =>
    intro st err h
    cases hv : visitEntry isImg rp e st with
    | error err2 =>
      simp only [runVisits, hv] at h
      injection h with h2
      subst h2
      exact visit_err_shape isImg rp e st err2 hv
    | ok st2 =>
      simp only [runVisits, hv] at h
      exact ih st2 err h

theorem walkAll_ok (isImg : Bool) (roots : List InputRoot) :
    ∀ st : VState, (∀ r ∈ roots, cleanRoot isImg r) →
      walkAll isImg roots st =
        .ok ⟨st.bundlePaths ++ bundleFound roots, st.pruned ++ prunedAll roots⟩ := by
  induction roots with
  | nil => intro st _; simp [walkAll, bundleFound, prunedAll, catLists]
  | cons r rs ih =>
    intro st h
    obtain ⟨hw, hok⟩ := h r (List.mem_cons_self _ _)
    simp only [walkAll, walkRoot, hw,
      runVisits_ok isImg r.path (walkList r) st hok]
    rw [ih _ (fun r2 h2 => h r2 (List.mem_cons_of_mem _ h2))]
    simp [bundleFound, prunedAll, bundleOfRoot, prunedOfRoot, catLists,
      List.append_assoc]

theorem walkAll_bad (isImg : Bool) (roots : List InputRoot) :
    (∀ r ∈ roots, r.walkErr = none) →
    (∃ r ∈ roots, ∃ e ∈ walkList r, ¬ okEntry isImg r.path e) →
    ∀ st : VState, ∃ err, walkAll isImg roots st = .error err := by
  induction roots with
  | nil => intro _ hbad _; rcases hbad with ⟨r, hr, _⟩; cases hr
  | cons r rs ih =>
    intro hw hbad st
    cases hv : walkRoot isImg r st with
    | error err => exact ⟨err, by simp only [walkAll, hv]⟩
    | ok st2 =>
      rcases hbad with ⟨r1, hr1, e, he, hbade⟩
      rcases List.mem_cons.mp hr1 with h1 | h1
      · subst h1
        have hwn := hw r1 (List.mem_cons_self _ _)
        obtain ⟨err, herr⟩ := runVisits_bad isImg r1.path (walkList r1) e he hbade st
        simp only [walkRoot, hwn, herr] at hv
        exact Except.noConfusion hv
      · obtain ⟨err, herr⟩ :=
          ih (fun r2 h2 => hw r2 (List.mem_cons_of_mem _ h2)) ⟨r1, h1, e, he, hbade⟩ st2
        exact ⟨err, by simp only [walkAll, hv]; exact herr⟩

theorem walkAll_err_shape (isImg : Bool) (roots : List InputRoot) :
    (∀ r ∈ roots, r.walkErr = none) →
    ∀ (st : VState) (err : PushErr), walkAll isImg roots st = .error err →
      (isImg = true → ∃ p, err = .imagesCannotHaveBundleDir p) ∧
      (isImg = false → ∃ ip p, err = .expectedDirectChild ip p) := by
  induction roots with
  | nil => intro _ st err h; simp [walkAll] at h
  | cons r rs ih =>
    intro hw st err h
    have hwn := hw r (List.mem_cons_self _ _)
    simp only [walkAll, walkRoot, hwn] at h
    cases hv : runVisits isImg r.path (walkList r) st with
    | error err2 =>
      rw [hv] at h
      injection h with h2
      subst h2
      exact runVisits_err_shape isImg r.path (walkList r) st err2 hv
    | ok st2 =>
      rw [hv] at h
      exact ih (fun r2 h2 => hw r2 (List.mem_cons_of_mem _ h2)) st2 err h

theorem validateFiles_clean (isImg : Bool) (roots : List InputRoot)
    (h : ∀ r ∈ roots, cleanRoot isImg r) :
    validateFiles isImg roots =
      (if 1 < (bundleFound roots).length then
         .error (.expectedOneImgpkgDir (bundleFound roots))
       else checkRepeatedPaths (prunedAll roots)) := by
  unfold validateFiles
  rw [walkAll_ok isImg roots ⟨[], []⟩ h]
  simp

theorem validateFiles_dup (isImg : Bool) (roots : List InputRoot)
    (hclean : ∀ r ∈ roots, cleanRoot isImg r)
    (hcount : ¬ 1 < (bundleFound roots).length)
    (k p : FsPath) (hmem : (k, p) ∈ prunedAll roots)
    (hlen : 1 < (groupPaths k (prunedAll roots)).length) :
    validateFiles isImg roots =
      .error (.duplicatePaths (repeatedPaths (prunedAll roots))) ∧
    p ∈ repeatedPaths (prunedAll roots) := by
  obtain ⟨h1, h2⟩ := checkRepeatedPaths_err (prunedAll roots) k p hmem hlen
  refine ⟨?_, h2⟩
  rw [validateFiles_clean isImg roots hclean, if_neg hcount, h1]

theorem validateFiles_img_err (roots : List InputRoot)
    (hw : ∀ r ∈ roots, r.walkErr = none)
    (hhit : ∃ r ∈ roots, ∃ e ∈ walkList r, imgpkgHit r e) :
    ∃ p, validateFiles true roots = .error (.imagesCannotHaveBundleDir p) := by
  have hbad : ∃ r ∈ roots, ∃ e ∈ walkList r, ¬ okEntry true r.path e := by
    rcases hhit with ⟨r, hr, e, he, hns, hbase⟩
    refine ⟨r, hr, e, he, ?_⟩
    intro hok
    rcases hok with h | h | ⟨hi, _⟩
    · exact hns h
    · exact h hbase
    · cases hi
  obtain ⟨err, herr⟩ := walkAll_bad true roots hw hbad ⟨[], []⟩
  obtain ⟨himg, _⟩ := walkAll_err_shape true roots hw ⟨[], []⟩ err herr
  obtain ⟨p, hp⟩ := himg rfl
  refine ⟨p, ?_⟩
  unfold validateFiles
  simp only [herr]
  rw [hp]

theorem validateFiles_bundle_err (roots : List InputRoot)
    (hw : ∀ r ∈ roots, r.walkErr = none)
    (hbad : ∃ r ∈ roots, ∃ e ∈ walkList r, ¬ okEntry false r.path e) :
    ∃ ip p, validateFiles false roots = .error (.expectedDirectChild ip p) := by
  obtain ⟨err, herr⟩ := walkAll_bad false roots hw hbad ⟨[], []⟩
  obtain ⟨_, hbnd⟩ := walkAll_err_shape false roots hw ⟨[], []⟩ err herr
  obtain ⟨ip, p, hp⟩ := hbnd rfl
  refine ⟨ip, p, ?_⟩
  unfold validateFiles
  simp only [herr]
  rw [hp]

theorem nested_not_ok (r : InputRoot) (e : WalkEntry)
    (hbase : lastD e.rel = BundleDir) (hlen : 2 ≤ e.rel.length) :
    ¬ okEntry false r.path e := by
  have hne : e.rel ≠ [] := by
    intro h; rw [h] at hlen; simp at hlen
  intro hok
  rcases hok with ⟨h1, _⟩ | h | ⟨_, hd⟩
  · exact hne h1
  · rw [lastD_append _ _ hne] at h; exact h hbase
  · rw [dropLast_append _ _ hne] at hd
    have hz : e.rel.dropLast = [] := (append_eq_self_iff _ _).mp hd
    have hl2 := List.length_dropLast e.rel
    rw [hz] at hl2
    simp only [List.length_nil] at hl2
    omega

theorem splitNl_ne_nil (s : List Char) : splitNl s ≠ [] := by
  cases s with
  | nil => simp [splitNl]
  | cons c cs =>
    by_cases h : c = '\n'
    · simp [splitNl, h]
    · simp only [splitNl, if_neg h]
      cases h2 : splitNl cs <;> simp

theorem replaceNl_joinLines (pfx : List Char) (s : List Char) :
    pfx ++ replaceNl pfx s = joinLines ((splitNl s).map (fun l => pfx ++ l)) := by
  induction s with
  | nil => simp [replaceNl, splitNl, joinLines]
  | cons c cs ih =>
    by_cases h : c = '\n'
    · subst h
      cases h2 : splitNl cs with
      | nil => exact absurd h2 (splitNl_ne_nil cs)
      | cons g gs =>
        rw [h2] at ih
        simp only [List.map_cons] at ih
        have hL : replaceNl pfx ('\n' :: cs) = '\n' :: (pfx ++ replaceNl pfx cs) := by
          simp [replaceNl]
        have hR : splitNl ('\n' :: cs) = [] :: g :: gs := by
          simp [splitNl, h2]
        rw [hL, hR]
        simp only [List.map_cons, List.map_nil, joinLines, List.append_nil]
        rw [← ih]
    · cases h2 : splitNl cs with
      | nil => exact absurd h2 (splitNl_ne_nil cs)
      | cons g gs =>
        rw [h2] at ih
        simp only [List.map_cons] at ih
        have hL : replaceNl pfx (c :: cs) = c :: replaceNl pfx cs := by
          simp [replaceNl, h]
        have hR : splitNl (c :: cs) = (c :: g) :: gs := by
          simp [splitNl, h, h2]
        rw [hL, hR]
        cases gs with
        | nil =>
          simp only [List.map_cons, List.map_nil, joinLines] at ih ⊢
          have hg : replaceNl pfx cs = g := List.append_cancel_left ih
          rw [hg]
        | cons g2 gs2 =>
          simp only [List.map_cons, joinLines] at ih ⊢
          have hx : pfx ++ replaceNl pfx cs =
              pfx ++ (g ++ '\n' :: joinLines ((pfx ++ g2) :: gs2.map (fun l => pfx ++ l))) := by
            rw [ih]; simp [List.append_assoc]
          have hg := List.append_cancel_left hx
          rw [hg]
          simp [List.append_assoc]

/- ---------------------------------------------------------------------
Claim theorems
--------------------------------------------------------------------- -/

/-- C9: for every prefix and input, a successful `LoggerPrefixWriter.Write`
hands the underlying writer exactly the input with the prefix prepended to
the first line and inserted after every interior newline and a single
trailing newline appended, and returns the length of the original input
(the Go code mutates only a fresh copy of the slice, never the caller's). -/
theorem c9_logger_write (w : LoggerPrefixWriter) (data : List Char) :
    w.Write data none = (specLineFormat w.pfx data, .ok data.length) := by
  unfold LoggerPrefixWriter.Write prefixWriteData specLineFormat
  rw [← replaceNl_joinLines w.pfx (dropTrailingNl data)]
  simp [List.append_assoc]

/-- C7: push flag validation fails exactly when both an image and a bundle
destination are given, or neither is, or a lock-file output path is
requested together with an image destination; otherwise it passes. -/
theorem c7_flag_validation (o : PushOptions) :
    o.validateFlags ≠ none ↔
      ((o.image ≠ "" ∧ o.bundle ≠ "") ∨ (o.image = "" ∧ o.bundle = "") ∨
       (o.image ≠ "" ∧ o.lockFilePath ≠ "")) := by
  unfold PushOptions.validateFlags
  by_cases hi : o.image = "" <;> by_cases hb : o.bundle = "" <;>
    by_cases hl : o.lockFilePath = "" <;> simp [hi, hb, hl]

/-- C8: a violated bundle-shape invariant is a validation error, not a
fatal one: `PresentsAsBundle` maps a `bundleValidationError` from
`validateImgpkgDirs` to `(false, nil)`, a passing validation to
`(true, nil)`, and surfaces only non-validation failures (a failing
filesystem walk) as errors. -/
theorem c8_presents_as_bundle (b : Contents) :
    (∀ e, b.findImgpkgDirs = .error e → b.PresentsAsBundle = (false, some e)) ∧
    (∀ dirs v, b.findImgpkgDirs = .ok dirs →
       validateImgpkgDirs b.flagPaths dirs = some (.bundleValidation v) →
       b.PresentsAsBundle = (false, none)) ∧
    (∀ dirs, b.findImgpkgDirs = .ok dirs →
       validateImgpkgDirs b.flagPaths dirs = none →
       b.PresentsAsBundle = (true, none)) := by
  refine ⟨?_, ?_, ?_⟩
  · intro e h
    unfold Contents.PresentsAsBundle
    simp only [h]
  · intro dirs v h hv
    unfold Contents.PresentsAsBundle
    simp only [h, hv]
  · intro dirs h hv
    unfold Contents.PresentsAsBundle
    simp only [h, hv]

theorem c8_witness :
    Contents.PresentsAsBundle c8Yes = (true, none) ∧
    Contents.PresentsAsBundle c8No = (false, none) ∧
    Contents.PresentsAsBundle c8Err = (false, some (.walkFailure ("io fail"))) :=
  ⟨(c8_presents_as_bundle c8Yes).2.2 [["app8", ".imgpkg"]] (by decide) (by decide),
   (c8_presents_as_bundle c8No).2.1 [] (.expectedOneImgpkgDir []) (by decide) (by decide),
   (c8_presents_as_bundle c8Err).1 (.walkFailure ("io fail")) (by decide)⟩

/-- C1 counterexample: a bundle push whose inputs hold no `.imgpkg`
directory at all (count 0) passes the push command's file validation,
while the claim requires a count-mismatch failure whenever the count is 0. -/
theorem c1_claim_false :
    bundleFound [c1NoImgpkgRoot] = [] ∧
    Contents.findImgpkgDirs ⟨[c1NoImgpkgRoot], []⟩ = .ok [] ∧
    validateFiles false [c1NoImgpkgRoot] = .ok () :=
  ⟨by decide, by decide, by decide⟩

/-- C1 (amended): `Contents.validateImgpkgDirs` fails with a count-mismatch
error whenever the count of found `.imgpkg` dirs differs from 1 (0, or 2 or
more); the push command's file validation fails a plain-image push whenever
any `.imgpkg` entry is walked (other than a skipped root directory), fails
a bundle push with a count-mismatch error whenever 2 or more `.imgpkg`
entries are collected, but accepts a bundle push with count 0 (it then
passes whenever no pruned paths collide). -/
theorem c1_amended :
    (∀ flagPaths dirs : List FsPath, dirs.length ≠ 1 →
       validateImgpkgDirs flagPaths dirs =
         some (.bundleValidation (.expectedOneImgpkgDir dirs))) ∧
    (∀ roots : List InputRoot, (∀ r ∈ roots, r.walkErr = none) →
       (∃ r ∈ roots, ∃ e ∈ walkList r, imgpkgHit r e) →
       ∃ p, validateFiles true roots = .error (.imagesCannotHaveBundleDir p)) ∧
    (∀ roots : List InputRoot, (∀ r ∈ roots, cleanRoot false r) →
       1 < (bundleFound roots).length →
       validateFiles false roots = .error (.expectedOneImgpkgDir (bundleFound roots))) ∧
    (∀ roots : List InputRoot, (∀ r ∈ roots, cleanRoot false r) →
       bundleFound roots = [] →
       (∀ k ∈ dedupKeys (prunedAll roots), (groupPaths k (prunedAll roots)).length ≤ 1) →
       validateFiles false roots = .ok ()) := by
  refine ⟨?_, ?_, ?_, ?_⟩
  · intro fps dirs h
    unfold validateImgpkgDirs
    rw [if_pos h]
  · exact validateFiles_img_err
  · intro roots hclean hcount
    rw [validateFiles_clean false roots hclean, if_pos hcount]
  · intro roots hclean hzero hgroups
    have hn : ¬ 1 < (bundleFound roots).length := by rw [hzero]; simp
    rw [validateFiles_clean false roots hclean, if_neg hn]
    exact checkRepeatedPaths_ok _ hgroups

theorem c1_amended_witness :
    validateImgpkgDirs [["a"]] [] =
      some (.bundleValidation (.expectedOneImgpkgDir [])) ∧
    ∃ p, validateFiles true [c1ImgRoot] = .error (.imagesCannotHaveBundleDir p) :=
  ⟨c1_amended.1 [["a"]] [] (by decide),
   c1_amended.2.1 [c1ImgRoot] (by decide) (by decide)⟩

/-- C2 counterexample: an input set in which two different absolute paths
(`a/f.txt` and `b/f.txt`) reduce to the same relative path, but which also
holds two `.imgpkg` directories: push validation fails with the
count-mismatch error, not a duplicate-path error, because the `.imgpkg`
checks run first. -/
theorem c2_claim_false :
    1 < (groupPaths ["f.txt"] (prunedAll [c2MaskA, c2MaskB])).length ∧
    validateFiles false [c2MaskA, c2MaskB] =
      .error (.expectedOneImgpkgDir [["a", ".imgpkg"], ["b", ".imgpkg"]]) ∧
    isDuplicatePathsErr (validateFiles false [c2MaskA, c2MaskB]) = false :=
  ⟨by decide, by decide, by decide⟩

/-- C2 (amended): when the `.imgpkg` walk checks and the `.imgpkg` count
check pass (they run first and their error is returned instead when they
fail), push validation fails with a duplicate-path error whose list holds
every member of every colliding group whenever some root-relative path is
produced by more than one walked path, and the duplicate-path check passes
whenever every root-relative path is produced by at most one walked path. -/
theorem c2_amended (mode : Bool) (roots : List InputRoot)
    (hclean : ∀ r ∈ roots, cleanRoot mode r)
    (hcount : ¬ 1 < (bundleFound roots).length) :
    (∀ k p, (k, p) ∈ prunedAll roots →
       1 < (groupPaths k (prunedAll roots)).length →
       validateFiles mode roots =
         .error (.duplicatePaths (repeatedPaths (prunedAll roots))) ∧
       p ∈ repeatedPaths (prunedAll roots)) ∧
    ((∀ k ∈ dedupKeys (prunedAll roots), (groupPaths k (prunedAll roots)).length ≤ 1) →
       validateFiles mode roots = .ok ()) := by
  constructor
  · intro k p hmem hlen
    exact validateFiles_dup mode roots hclean hcount k p hmem hlen
  · intro hgroups
    rw [validateFiles_clean mode roots hclean, if_neg hcount]
    exact checkRepeatedPaths_ok _ hgroups

theorem c2_amended_witness :
    (validateFiles false [c2DupA, c2DupB] =
       .error (.duplicatePaths (repeatedPaths (prunedAll [c2DupA, c2DupB]))) ∧
     ["x", "f"] ∈ repeatedPaths (prunedAll [c2DupA, c2DupB])) ∧
    validateFiles false [⟨["q"], true, [⟨["one.yml"], false⟩], none⟩] = .ok () :=
  ⟨(c2_amended false [c2DupA, c2DupB] (by decide) (by decide)).1
     ["f"] ["x", "f"] (by decide) (by decide),
   (c2_amended false [⟨["q"], true, [⟨["one.yml"], false⟩], none⟩]
     (by decide) (by decide)).2 (by decide)⟩

/-- C6: on a bundle push, a `.imgpkg` entry nested deeper than one level
under its root fails the push command's file validation with the
direct-child placement error; `Contents.validateImgpkgDirs` with exactly
one found dir passes exactly when that dir's parent is one of the input
roots; and with exactly one collected `.imgpkg` dir the command's file
validation proceeds to the duplicate check (it does not fail). -/
theorem c6_direct_child :
    (∀ roots : List InputRoot, (∀ r ∈ roots, r.walkErr = none) →
       (∃ r ∈ roots, ∃ e ∈ r.children, lastD e.rel = BundleDir ∧ 2 ≤ e.rel.length) →
       ∃ ip p, validateFiles false roots = .error (.expectedDirectChild ip p)) ∧
    (∀ (flagPaths : List FsPath) (p : FsPath),
       validateImgpkgDirs flagPaths [p] = none ↔ p.dropLast ∈ flagPaths) ∧
    (∀ roots : List InputRoot, (∀ r ∈ roots, cleanRoot false r) →
       (bundleFound roots).length = 1 →
       validateFiles false roots = checkRepeatedPaths (prunedAll roots)) := by
  refine ⟨?_, ?_, ?_⟩
  · intro roots hw hnested
    apply validateFiles_bundle_err roots hw
    rcases hnested with ⟨r, hr, e, he, hbase, hlen⟩
    exact ⟨r, hr, e, List.mem_cons_of_mem _ he, nested_not_ok r e hbase hlen⟩
  · intro fps p
    have hone : ¬([p] : List FsPath).length ≠ 1 := by simp
    unfold validateImgpkgDirs
    rw [if_neg hone]
    by_cases hany : fps.any (fun fp => decide (([p].headD ([] : FsPath)).dropLast = fp)) = true
    · rw [if_pos hany]
      simp only [List.any_eq_true, decide_eq_true_eq, List.headD_cons] at hany
      constructor
      · intro _
        rcases hany with ⟨fp, hfp, heq⟩
        rw [heq]
        exact hfp
      · intro _
        rfl
    · rw [if_neg hany]
      constructor
      · intro h
        exact absurd h (by simp)
      · intro hmem
        exfalso
        apply hany
        simp only [List.any_eq_true, decide_eq_true_eq, List.headD_cons]
        exact ⟨p.dropLast, hmem, rfl⟩
  · intro roots hclean hone
    have h2 : ¬ 1 < (bundleFound roots).length := by
      rw [hone]
      exact lt_irrefl 1
    rw [validateFiles_clean false roots hclean, if_neg h2]

theorem c6_witness :
    (∃ ip p, validateFiles false [c6Root] = .error (.expectedDirectChild ip p)) ∧
    (validateImgpkgDirs [["app8"]] [["app8", ".imgpkg"]] = none ↔
      (["app8", ".imgpkg"] : FsPath).dropLast ∈ [(["app8"] : FsPath)]) :=
  ⟨c6_direct_child.1 [c6Root] (by decide) (by decide),
   c6_direct_child.2.1 [["app8"]] ["app8", ".imgpkg"]⟩

/-- C10 counterexample: two distinct plain-file inputs both named
`.imgpkg` share a base name, yet a bundle push fails with the direct-child
placement error, not a duplicate-path error. -/
theorem c10_claim_false :
    lastD c10F1.path = lastD c10F2.path ∧
    validateFiles false [c10F1, c10F2] =
      .error (.expectedDirectChild ["a", ".imgpkg"] ["a", ".imgpkg"]) ∧
    isDuplicatePathsErr (validateFiles false [c10F1, c10F2]) = false :=
  ⟨by decide, by decide, by decide⟩

/-- C10 (amended): a plain-file input's bundle-internal path is its base
name, so two distinct input files sharing a base name collide; provided the
`.imgpkg` checks pass (in particular the shared base name is not `.imgpkg`
itself, which fails earlier with a placement error), push fails with a
duplicate-path error listing both absolute paths. -/
theorem c10_amended (mode : Bool) (roots : List InputRoot) (r1 r2 : InputRoot)
    (h1 : r1 ∈ roots) (h2 : r2 ∈ roots)
    (hf1 : r1.isDir = false) (hf2 : r2.isDir = false)
    (hc1 : r1.children = []) (hc2 : r2.children = [])
    (hbase : lastD r1.path = lastD r2.path) (hne : r1.path ≠ r2.path)
    (hclean : ∀ r ∈ roots, cleanRoot mode r)
    (hcount : ¬ 1 < (bundleFound roots).length) :
    prunedOfRoot r1 = [([lastD r1.path], r1.path)] ∧
    validateFiles mode roots =
      .error (.duplicatePaths (repeatedPaths (prunedAll roots))) ∧
    r1.path ∈ repeatedPaths (prunedAll roots) ∧
    r2.path ∈ repeatedPaths (prunedAll roots) := by
  have hpr1 : prunedOfRoot r1 = [([lastD r1.path], r1.path)] := by
    unfold prunedOfRoot walkList prunedAdd entryKey
    rw [hc1, hf1]
    simp [catLists]
  have hpr2 : prunedOfRoot r2 = [([lastD r2.path], r2.path)] := by
    unfold prunedOfRoot walkList prunedAdd entryKey
    rw [hc2, hf2]
    simp [catLists]
  have hm1 : ([lastD r1.path], r1.path) ∈ prunedAll roots := by
    unfold prunedAll
    rw [mem_catLists]
    refine ⟨r1, h1, ?_⟩
    rw [hpr1]
    exact List.mem_singleton.mpr rfl
  have hm2 : ([lastD r1.path], r2.path) ∈ prunedAll roots := by
    unfold prunedAll
    rw [mem_catLists]
    refine ⟨r2, h2, ?_⟩
    rw [hpr2, hbase]
    exact List.mem_singleton.mpr rfl
  have hg1 : r1.path ∈ groupPaths [lastD r1.path] (prunedAll roots) :=
    (mem_groupPaths _ _ _).mpr hm1
  have hg2 : r2.path ∈ groupPaths [lastD r1.path] (prunedAll roots) :=
    (mem_groupPaths _ _ _).mpr hm2
  have hlen : 1 < (groupPaths [lastD r1.path] (prunedAll roots)).length :=
    two_mem_length _ _ _ hg1 hg2 hne
  obtain ⟨hv, hrep1⟩ :=
    validateFiles_dup mode roots hclean hcount [lastD r1.path] r1.path hm1 hlen
  obtain ⟨_, hrep2⟩ :=
    validateFiles_dup mode roots hclean hcount [lastD r1.path] r2.path hm2 hlen
  exact ⟨hpr1, hv, hrep1, hrep2⟩

theorem c10_amended_witness :
    prunedOfRoot c10W1 = [(["data.yml"], ["m", "data.yml"])] ∧
    validateFiles false [c10W1, c10W2] =
      .error (.duplicatePaths (repeatedPaths (prunedAll [c10W1, c10W2]))) ∧
    (["m", "data.yml"] : FsPath) ∈ repeatedPaths (prunedAll [c10W1, c10W2]) ∧
    (["n", "data.yml"] : FsPath) ∈ repeatedPaths (prunedAll [c10W1, c10W2]) :=
  c10_amended false [c10W1, c10W2] c10W1 c10W2 (by decide) (by decide)
    (by decide) (by decide) (by decide) (by decide) (by decide) (by decide)
    (by decide) (by decide)

/-- C4: whenever file validation fails, push returns that validation error
verbatim, with no `WriteImage` call attempted and no lock file written; a
packing failure likewise aborts before any registry write. -/
theorem c4_no_write_on_validation_error (o : PushOptions) (roots : List InputRoot)
    (env : RunEnv) :
    (o.validateFlags = none → ∀ e, validateFiles (o.image ≠ "") roots = .error e →
       o.Run roots env = ⟨some e, [], none⟩) ∧
    (o.validateFlags = none → validateFiles (o.image ≠ "") roots = .ok () →
       ∀ t, env.parseTag (if o.bundle ≠ "" then o.bundle else o.image) = .ok t →
       ∀ m, env.packErr = some m →
       o.Run roots env = ⟨some (.packFailed m), [], none⟩) := by
  constructor
  · intro hf e he
    unfold PushOptions.Run
    simp only [hf, he]
  · intro hf hv t ht m hm
    unfold PushOptions.Run
    simp only [hf, hv, ht, hm]

theorem c4_witness :
    PushOptions.Run c4Flags [c4Root] wEnv =
      ⟨some (.expectedDirectChild ["r"] ["r", "d", ".imgpkg"]), [], none⟩ :=
  (c4_no_write_on_validation_error c4Flags [c4Root] wEnv).1 (by decide) _ (by decide)

/-- C3: in a run that returns no error, a BundleLock document is written
exactly when a lock output path was requested, at that path, with
apiVersion `imgpkg.k14s.io/v1alpha1`, kind `BundleLock`,
`spec.image.url = repository@digest-of-the-uploaded-image` and
`spec.image.tag` the tag of the parsed upload reference (`Run` is the only
modelled operation constructing a BundleLock). -/
theorem c3_bundle_lock (o : PushOptions) (roots : List InputRoot) (env : RunEnv)
    (h : (o.Run roots env).err = none) :
    ((o.Run roots env).lockWritten.isSome = true ↔ o.lockFilePath ≠ "") ∧
    (∀ pa bl, (o.Run roots env).lockWritten = some (pa, bl) →
      pa = o.lockFilePath ∧
      bl.apiVersion = "imgpkg.k14s.io/v1alpha1" ∧
      bl.kind = "BundleLock" ∧
      ∃ tg dg, env.parseTag (if o.bundle ≠ "" then o.bundle else o.image) = .ok tg ∧
        env.digestResult = .ok dg ∧
        bl.spec.image.url = tg.context ++ "@" ++ dg ∧
        bl.spec.image.tag = tg.tagStr) := by
  unfold PushOptions.Run at h ⊢
  cases hf : o.validateFlags with
  | some e => simp only [hf] at h; exact absurd h (by simp)
  | none =>
    simp only [hf] at h ⊢
    cases hv : validateFiles (o.image ≠ "") roots with
    | error e => simp only [hv] at h; exact absurd h (by simp)
    | ok u =>
      cases u
      simp only [hv] at h ⊢
      cases hp : env.parseTag (if o.bundle ≠ "" then o.bundle else o.image) with
      | error msg => simp only [hp] at h; exact absurd h (by simp)
      | ok uploadRef =>
        simp only [hp] at h ⊢
        cases hpk : env.packErr with
        | some msg => simp only [hpk] at h; exact absurd h (by simp)
        | none =>
          simp only [hpk] at h ⊢
          cases hwr : env.writeImageErr with
          | some msg => simp only [hwr] at h; exact absurd h (by simp)
          | none =>
            simp only [hwr] at h ⊢
            cases hd : env.digestResult with
            | error msg => simp only [hd] at h; exact absurd h (by simp)
            | ok dg =>
              simp only [hd] at h ⊢
              by_cases hl : o.lockFilePath = ""
              · rw [if_neg (fun hx => hx hl)] at h ⊢
                constructor
                · simp [hl]
                · intro pa bl hw
                  exact absurd hw (by simp)
              · rw [if_pos hl] at h ⊢
                cases hwf : env.writeFileErr with
                | some msg => simp only [hwf] at h; exact absurd h (by simp)
                | none =>
                  simp only [hwf] at h ⊢
                  constructor
                  · simp [hl]
                  · intro pa bl hw
                    simp only [Option.some.injEq, Prod.mk.injEq] at hw
                    obtain ⟨hpa, hbl⟩ := hw
                    subst hbl
                    exact ⟨hpa.symm, rfl, rfl, uploadRef, dg, rfl, rfl, rfl, rfl⟩

theorem c3_bundle_lock_witness :
    "lock.yml" = c3Flags.lockFilePath ∧
    c3Lock.apiVersion = "imgpkg.k14s.io/v1alpha1" ∧
    c3Lock.kind = "BundleLock" ∧
    ∃ tg dg, wEnv.parseTag
        (if c3Flags.bundle ≠ "" then c3Flags.bundle else c3Flags.image) = .ok tg ∧
      wEnv.digestResult = .ok dg ∧
      c3Lock.spec.image.url = tg.context ++ "@" ++ dg ∧
      c3Lock.spec.image.tag = tg.tagStr :=
  (c3_bundle_lock c3Flags [c3Root] wEnv (by decide)).2 "lock.yml" c3Lock (by decide)

/-- The manifest recorded by any `WriteImage` call of `Run` is determined
by the declared kind. -/
theorem labels_of_write (o : PushOptions) (roots : List InputRoot) (env : RunEnv)
    (t : ImageTag) (m : Manifest)
    (hmem : (t, m) ∈ (o.Run roots env).imageWrites) :
    m = (if o.bundle ≠ "" then asFileBundleManifest else asFileImageManifest) := by
  unfold PushOptions.Run at hmem
  cases hf : o.validateFlags with
  | some e =>
    simp only [hf] at hmem
    exact absurd hmem (List.not_mem_nil _)
  | none =>
    simp only [hf] at hmem
    cases hv : validateFiles (o.image ≠ "") roots with
    | error e =>
      simp only [hv] at hmem
      exact absurd hmem (List.not_mem_nil _)
    | ok u =>
      cases u
      simp only [hv] at hmem
      cases hp : env.parseTag (if o.bundle ≠ "" then o.bundle else o.image) with
      | error msg =>
        simp only [hp] at hmem
        exact absurd hmem (List.not_mem_nil _)
      | ok uploadRef =>
        simp only [hp] at hmem
        cases hpk : env.packErr with
        | some msg =>
          simp only [hpk] at hmem
          exact absurd hmem (List.not_mem_nil _)
        | none =>
          simp only [hpk] at hmem
          cases hwr : env.writeImageErr with
          | some msg =>
            simp only [hwr, List.mem_singleton, Prod.mk.injEq] at hmem
            exact hmem.2
          | none =>
            simp only [hwr] at hmem
            cases hd : env.digestResult with
            | error msg =>
              simp only [hd, List.mem_singleton, Prod.mk.injEq] at hmem
              exact hmem.2
            | ok dg =>
              simp only [hd] at hmem
              by_cases hl : o.lockFilePath = ""
              · rw [if_neg (fun hx => hx hl)] at hmem
                simp only [List.mem_singleton, Prod.mk.injEq] at hmem
                exact hmem.2
              · rw [if_pos hl] at hmem
                cases hwf : env.writeFileErr with
                | some msg =>
                  simp only [hwf, List.mem_singleton, Prod.mk.injEq] at hmem
                  exact hmem.2
                | none =>
                  simp only [hwf, List.mem_singleton, Prod.mk.injEq] at hmem
                  exact hmem.2

/-- C5: every manifest a bundle push hands to `WriteImage` carries the
reserved bundle key set to the literal `"true"` — as does the manifest
produced by `Contents.Push` — and the manifest of a plain-image push never
carries the key. -/
theorem c5_bundle_label :
    (∀ (o : PushOptions) (roots : List InputRoot) (env : RunEnv) (t : ImageTag)
       (m : Manifest), (t, m) ∈ (o.Run roots env).imageWrites →
       (o.bundle ≠ "" → m.labels.lookup BundleConfigLabel = some ("true")) ∧
       (o.bundle = "" → m.labels.lookup BundleConfigLabel = none)) ∧
    (∀ (b : Contents) (m : Manifest), b.Push = .ok m →
       m.labels.lookup BundleConfigLabel = some ("true")) := by
  constructor
  · intro o roots env t m hmem
    have hm := labels_of_write o roots env t m hmem
    constructor
    · intro hb
      rw [hm, if_pos hb]
      rfl
    · intro hb
      rw [hm, if_neg (fun hx => hx hb)]
      rfl
  · intro b m h
    unfold Contents.Push at h
    cases hv : b.validate with
    | some e =>
      simp only [hv] at h
      exact absurd h (by simp)
    | none =>
      simp only [hv, Except.ok.injEq] at h
      rw [← h]
      rfl

theorem c5_bundle_label_witness :
    asFileBundleManifest.labels.lookup BundleConfigLabel = some ("true") ∧
    asFileImageManifest.labels.lookup BundleConfigLabel = none :=
  ⟨(c5_bundle_label.1 c5FlagsB [c3Root] wEnv wTag asFileBundleManifest (by decide)).1
     (by decide),
   (c5_bundle_label.1 c5FlagsI [c3Root] wEnv wTag asFileImageManifest (by decide)).2
     (by decide)⟩
